import Mathlib

/-!
Shallow embedding of the distributed key-value store
(`kvstore/hash_ring.py`, `kvstore/simple_store.py`, `kvstore/distributed_node.py`).

Python dicts are modelled as insertion-ordered association lists with unique
keys; dict assignment is `dinsert` (replace in place, else append).  The MD5
hash is abstracted as a function `String → Nat` threaded through the state.
Peer RPCs are modelled by a reachability predicate on node ids: an RPC to a
reachable node behaves exactly as the peer's internal handler; an RPC to an
unreachable node raises (counts as an error / no value).
-/

namespace KV

/-- Python dict assignment `d[k] = v`: replace the value at `k` in place if the
key is present, otherwise append the binding (insertion order preserved). -/
def dinsert {κ ν : Type} [DecidableEq κ] (l : List (κ × ν)) (k : κ) (v : ν) :
    List (κ × ν) :=
  if l.any (fun kv => kv.1 = k) then
    l.map (fun kv => if kv.1 = k then (k, v) else kv)
  else l ++ [(k, v)]

/-! ## Hash ring (`hash_ring.py`) -/

/-- `HashRing.__init__`: `nodes` is the dict position → node_id, and
`sorted_hashes` caches `sorted(nodes.keys())`. -/
structure HashRing where
  nodes : List (Nat × String)
  sorted_hashes : List Nat
  deriving DecidableEq

def HashRing.empty : HashRing := ⟨[], []⟩

/-- `HashRing.add_node`: insert the node at position `h node_id` and re-sort
the position list. -/
def HashRing.add_node (h : String → Nat) (r : HashRing) (node_id : String) :
    HashRing :=
  ⟨dinsert r.nodes (h node_id) node_id,
   List.insertionSort (· ≤ ·) ((dinsert r.nodes (h node_id) node_id).map Prod.fst)⟩

theorem HashRing.add_node_nodes (h : String → Nat) (r : HashRing)
    (node_id : String) :
    (r.add_node h node_id).nodes = dinsert r.nodes (h node_id) node_id := rfl

/-- The body of the `get_nodes` scan loop.  `n` is `len(self.nodes)`,
`r` is `replicas`, `vs` the sequence of node_ids the loop visits (ring order
from the start index, with wrap-around), `acc` is `result`.  The `seen_nodes`
set of the source always has the same members as `result` (a node is added to
both together), so membership and cardinality tests on `seen_nodes` are tests
on `acc`. -/
def ringWalk (n r : Nat) : List String → List String → List String
  | [], acc => acc
  | v :: rest, acc =>
    let acc' := if v ∈ acc ∨ r ≤ acc.length then acc else acc ++ [v]
    if r ≤ acc'.length ∨ n ≤ acc'.length then acc'
    else ringWalk n r rest acc'

/-- The start-index scan of `get_nodes`: `start_idx = 0`, then
`for i, node_hash in enumerate(sorted_hashes): if node_hash >= key_hash:
start_idx = i; break`.  If no position qualifies, `start_idx` keeps its
initial value `0`. -/
def scanStartAux (keyHash : Nat) : List Nat → Nat → Nat
  | [], _ => 0
  | p :: rest, i => if keyHash ≤ p then i else scanStartAux keyHash rest (i + 1)

/-- The sequence of node_ids inspected by the `get_nodes` loop: iteration `i`
reads position `sorted_hashes[(start + i) % n]` and resolves it through the
`nodes` dict. -/
def HashRing.visitSeq (ring : HashRing) (start : Nat) : List String :=
  (List.range ring.sorted_hashes.length).map
    (fun i => (ring.nodes.lookup
      (ring.sorted_hashes.getD ((start + i) % ring.sorted_hashes.length) 0)).getD "")

/-- `HashRing.get_nodes` for a key whose hash is `keyHash`: scan for the first
sorted position ≥ `keyHash` (defaulting to index 0), then walk the ring
from there collecting distinct node_ids. -/
def HashRing.get_nodes (ring : HashRing) (keyHash : Nat) (replicas : Nat) :
    List String :=
  if ring.nodes.isEmpty then []
  else ringWalk ring.nodes.length replicas
    (ring.visitSeq (scanStartAux keyHash ring.sorted_hashes 0)) []

/-- Well-formedness of a ring state, true of every state reachable through
`add_node` / `remove_node`: the cached sorted list is a sorted permutation of
the dict's keys, keys are unique (dict), and every binding places `node_id`
at position `h node_id`. -/
structure HashRing.WF (h : String → Nat) (ring : HashRing) : Prop where
  sorted : ring.sorted_hashes.Sorted (· ≤ ·)
  perm : ring.sorted_hashes.Perm (ring.nodes.map Prod.fst)
  keys_nodup : (ring.nodes.map Prod.fst).Nodup
  hashed : ∀ kv ∈ ring.nodes, kv.1 = h kv.2

/-! ### The walk collects a prefix of the visited sequence -/

theorem ringWalk_eq_take (n r : Nat) :
    ∀ (vs acc : List String), (acc ++ vs).Nodup →
      acc.length + vs.length ≤ n →
      ringWalk n r vs acc = acc ++ vs.take (r - acc.length) := by
  intro vs
  induction vs with
  | nil => intro acc _ _; simp [ringWalk]
  | cons v rest ih =>
    intro acc hnd hlen
    have hv : v ∉ acc := by
      intro hmem
      exact (List.disjoint_left.mp (List.nodup_append.mp hnd).2.2 hmem) (by simp)
    by_cases hr : r ≤ acc.length
    · have h0 : r - acc.length = 0 := Nat.sub_eq_zero_of_le hr
      simp only [ringWalk, h0, List.take_zero, List.append_nil]
      rw [if_pos (Or.inr hr), if_pos (Or.inl hr)]
    · push_neg at hr
      have hstep : (if v ∈ acc ∨ r ≤ acc.length then acc else acc ++ [v]) = acc ++ [v] := by
        rw [if_neg]; push_neg; exact ⟨hv, by omega⟩
      have hpos : 1 ≤ r - acc.length := by omega
      rw [show ringWalk n r (v :: rest) acc =
        (if r ≤ (acc ++ [v]).length ∨ n ≤ (acc ++ [v]).length then acc ++ [v]
         else ringWalk n r rest (acc ++ [v])) by
          simp only [ringWalk, hstep]]
      by_cases hbrk : r ≤ (acc ++ [v]).length ∨ n ≤ (acc ++ [v]).length
      · rw [if_pos hbrk]
        rcases hbrk with hb | hb
        · simp only [List.length_append, List.length_cons, List.length_nil] at hb
          have : r - acc.length = 1 := by omega
          rw [this]
          simp [List.take]
        · simp only [List.length_append, List.length_cons, List.length_nil] at hb
          have hrest : rest = [] := by
            have : acc.length + (rest.length + 1) ≤ n := by
              simpa using hlen
            have : rest.length = 0 := by omega
            exact List.length_eq_zero.mp this
          subst hrest
          obtain ⟨k, hk⟩ : ∃ k, r - acc.length = k + 1 := ⟨r - acc.length - 1, by omega⟩
          rw [hk]
          simp [List.take]
      · rw [if_neg hbrk]
        have hnd' : ((acc ++ [v]) ++ rest).Nodup := by
          simpa [List.append_assoc] using hnd
        have hlen' : (acc ++ [v]).length + rest.length ≤ n := by
          simp only [List.length_append, List.length_cons, List.length_nil]
          simp only [List.length_cons] at hlen
          omega
        rw [ih (acc ++ [v]) hnd' hlen']
        obtain ⟨k, hk⟩ : ∃ k, r - acc.length = k + 1 := ⟨r - acc.length - 1, by omega⟩
        have hk' : r - (acc ++ [v]).length = k := by
          simp only [List.length_append, List.length_cons, List.length_nil]
          omega
        rw [hk, hk']
        simp [List.take]

/-! ## First-seen deduplication

`firstSeen l` lists the elements of `l` in order of first occurrence, once
each.  It models both iteration order of a Python `set`/`Counter` built by
inserting the elements of `l` left to right. -/

def firstSeen {α : Type} [DecidableEq α] : List α → List α
  | [] => []
  | v :: rest => v :: firstSeen (rest.filter (fun w => decide (w ≠ v)))
  termination_by l => l.length
  decreasing_by
    simp only [List.length_cons]
    exact Nat.lt_succ_of_le (List.length_filter_le _ _)

/-- Occurrence count of `v` in `l` (the multiplicity `Counter(l)[v]`). -/
def countOcc {α : Type} [DecidableEq α] (l : List α) (v : α) : Nat :=
  l.countP (fun w => decide (w = v))

/-- Index of the first occurrence of `v` in `l`. -/
def firstIdx {α : Type} [DecidableEq α] (l : List α) (v : α) : Nat :=
  l.findIdx (fun w => decide (w = v))

theorem firstSeen_of_nodup_aux {α : Type} [DecidableEq α] :
    ∀ (n : Nat) (l : List α), l.length ≤ n → l.Nodup → firstSeen l = l := by
  intro n
  induction n with
  | zero =>
    intro l hl _
    have : l = [] := List.length_eq_zero.mp (Nat.le_zero.mp hl)
    subst this; simp [firstSeen]
  | succ n ih =>
    intro l hl hnd
    cases l with
    | nil => simp [firstSeen]
    | cons v rest =>
      have hv : v ∉ rest := (List.nodup_cons.mp hnd).1
      have hfil : rest.filter (fun w => decide (w ≠ v)) = rest := by
        apply List.filter_eq_self.mpr
        intro w hw
        simp only [decide_eq_true_eq]
        intro hwv; exact hv (hwv ▸ hw)
      rw [firstSeen, hfil]
      have hlen : rest.length ≤ n := by
        simp only [List.length_cons] at hl; omega
      rw [ih rest hlen (List.nodup_cons.mp hnd).2]

theorem firstSeen_of_nodup {α : Type} [DecidableEq α] (l : List α)
    (hnd : l.Nodup) : firstSeen l = l :=
  firstSeen_of_nodup_aux l.length l (Nat.le_refl _) hnd

/-! ## Facts about well-formed rings -/

theorem lookup_of_mem_keys_nodup {l : List (Nat × String)}
    (hnd : (l.map Prod.fst).Nodup) {k : Nat} {v : String}
    (hm : (k, v) ∈ l) : l.lookup k = some v := by
  induction l with
  | nil => cases hm
  | cons kv rest ih =>
    obtain ⟨k1, v1⟩ := kv
    have hnd2 := hnd
    rw [List.map_cons] at hnd2
    obtain ⟨hhd, hnd'⟩ := List.nodup_cons.mp hnd2
    rcases List.mem_cons.mp hm with heq | htl
    · injection heq with hk hv
      subst hk; subst hv
      simp [List.lookup]
    · have hmemk : k ∈ rest.map Prod.fst := List.mem_map.mpr ⟨(k, v), htl, rfl⟩
      have hk1 : k1 ≠ k := by
        intro hkk; rw [hkk] at hhd; exact hhd hmemk
      have hbeq : (k == k1) = false := by
        simp only [beq_eq_false_iff_ne, ne_eq]
        exact fun hc => hk1 hc.symm
      simp only [List.lookup, hbeq]
      exact ih hnd' htl

theorem values_nodup_of_WF {h : String → Nat} {ring : HashRing}
    (hw : ring.WF h) : (ring.nodes.map Prod.snd).Nodup := by
  have hent : ring.nodes.Nodup := hw.keys_nodup.of_map
  apply List.Nodup.map_on _ hent
  intro e₁ h₁ e₂ h₂ hsnd
  have hf₁ : e₁.1 = h e₁.2 := hw.hashed e₁ h₁
  have hf₂ : e₂.1 = h e₂.2 := hw.hashed e₂ h₂
  have hfst : e₁.1 = e₂.1 := by rw [hf₁, hf₂, hsnd]
  exact List.inj_on_of_nodup_map hw.keys_nodup h₁ h₂ hfst

theorem nodup_getD_inj {L : List Nat} (hnd : L.Nodup) {a b : Nat}
    (ha : a < L.length) (hb : b < L.length)
    (hab : L.getD a 0 = L.getD b 0) : a = b := by
  rw [List.getD_eq_getElem L 0 ha, List.getD_eq_getElem L 0 hb] at hab
  exact (List.Nodup.getElem_inj_iff hnd).mp hab

/-- The sequence of node_ids visited by the `get_nodes` loop from any start
index: it has one entry per ring position and, on a well-formed ring, no
repeated node_id. -/
theorem visited_length_nodup {h : String → Nat} {ring : HashRing}
    (hw : ring.WF h) (hne : ring.nodes ≠ []) (start : Nat) :
    (ring.visitSeq start).length = ring.nodes.length ∧
    (ring.visitSeq start).Nodup := by
  rw [HashRing.visitSeq]
  have hkeys : ring.sorted_hashes.length = ring.nodes.length := by
    have := hw.perm.length_eq
    simpa using this
  have hLnd : ring.sorted_hashes.Nodup := hw.perm.nodup_iff.mpr (by
    simpa using hw.keys_nodup)
  have npos : 0 < ring.sorted_hashes.length := by
    rw [hkeys]
    exact List.length_pos.mpr hne
  constructor
  · simp [hkeys]
  · apply List.Nodup.map_on _ (List.nodup_range _)
    intro i hi j hj hij
    simp only [List.mem_range] at hi hj
    set n := ring.sorted_hashes.length with hn
    have hia : (start + i) % n < n := Nat.mod_lt _ npos
    have hja : (start + j) % n < n := Nat.mod_lt _ npos
    -- each visited position is a key of the dict, so its lookup succeeds
    have hmem : ∀ c : Nat, c < n →
        ∃ v, (ring.nodes.lookup (ring.sorted_hashes.getD c 0)) = some v ∧
          (ring.sorted_hashes.getD c 0, v) ∈ ring.nodes := by
      intro c hc
      have hkey : ring.sorted_hashes.getD c 0 ∈ ring.nodes.map Prod.fst := by
        have : ring.sorted_hashes.getD c 0 ∈ ring.sorted_hashes := by
          rw [List.getD_eq_getElem _ 0 hc]
          exact List.getElem_mem hc
        exact hw.perm.mem_iff.mp this
      obtain ⟨kv, hkv, hfst⟩ := List.mem_map.mp hkey
      obtain ⟨k1, v1⟩ := kv
      simp only at hfst
      refine ⟨v1, ?_, ?_⟩
      · rw [← hfst]
        exact lookup_of_mem_keys_nodup hw.keys_nodup hkv
      · rw [← hfst]
        exact hkv
    obtain ⟨va, hva, hmema⟩ := hmem _ hia
    obtain ⟨vb, hvb, hmemb⟩ := hmem _ hja
    rw [hva, hvb] at hij
    simp only [Option.getD_some] at hij
    -- equal values force equal entries (values are distinct), hence equal keys
    have hval := values_nodup_of_WF hw
    have hentry : (ring.sorted_hashes.getD ((start + i) % n) 0, va)
        = (ring.sorted_hashes.getD ((start + j) % n) 0, vb) := by
      have := List.inj_on_of_nodup_map hval hmema hmemb (by simpa using hij)
      exact this
    have hkeq : ring.sorted_hashes.getD ((start + i) % n) 0
        = ring.sorted_hashes.getD ((start + j) % n) 0 :=
      congrArg Prod.fst hentry
    have hidx : (start + i) % n = (start + j) % n :=
      nodup_getD_inj hLnd hia hja hkeq
    have hmodeq : i ≡ j [MOD n] :=
      Nat.ModEq.add_left_cancel' start hidx
    have : i % n = j % n := hmodeq
    rwa [Nat.mod_eq_of_lt hi, Nat.mod_eq_of_lt hj] at this

/-! ## C6, C5: properties of `get_nodes` -/

theorem foldl_min_of_le (l : List Nat) :
    ∀ a, (∀ b ∈ l, a ≤ b) → l.foldl min a = a := by
  induction l with
  | nil => intro a _; rfl
  | cons b l ih =>
    intro a hle
    have hab : min a b = a := Nat.min_eq_left (hle b (by simp))
    simp only [List.foldl_cons, hab]
    exact ih a (fun c hc => hle c (by simp [hc]))

theorem sorted_min?_eq_head? (L : List Nat) (hs : L.Sorted (· ≤ ·)) :
    L.min? = L.head? := by
  cases L with
  | nil => rfl
  | cons a l =>
    have hle : ∀ b ∈ l, a ≤ b := (List.sorted_cons.mp hs).1
    simp only [List.min?, List.head?]
    rw [foldl_min_of_le l a hle]

theorem indexOf_cons_self_nat (a : Nat) (l : List Nat) :
    (a :: l).indexOf a = 0 := by
  simp [List.indexOf, List.findIdx_cons]

theorem indexOf_cons_ne_nat {m a : Nat} (l : List Nat) (h : m ≠ a) :
    (a :: l).indexOf m = l.indexOf m + 1 := by
  have : (a == m) = false := beq_eq_false_iff_ne.mpr (Ne.symm h)
  simp [List.indexOf, List.findIdx_cons, this]

theorem scanStartAux_spec (kh : Nat) :
    ∀ (L : List Nat) (i : Nat),
      scanStartAux kh L i =
        match (L.filter (fun p => decide (kh ≤ p))).head? with
        | some m => i + L.indexOf m
        | none => 0 := by
  intro L
  induction L with
  | nil => intro i; rfl
  | cons a l ih =>
    intro i
    by_cases hp : kh ≤ a
    · simp only [scanStartAux, if_pos hp, List.filter_cons,
        decide_eq_true_eq, hp, if_pos, List.head?]
      rw [indexOf_cons_self_nat]
      simp
    · have hfil : (a :: l).filter (fun p => decide (kh ≤ p))
          = l.filter (fun p => decide (kh ≤ p)) := by
        simp [List.filter_cons, hp]
      simp only [scanStartAux, if_neg hp, hfil]
      rw [ih (i + 1)]
      cases hh : (l.filter (fun p => decide (kh ≤ p))).head? with
      | none => rfl
      | some m =>
        have hmem : m ∈ l.filter (fun p => decide (kh ≤ p)) :=
          List.mem_of_mem_head? (by rw [hh]; rfl)
        have hkm : kh ≤ m := by
          have := (List.mem_filter.mp hmem).2
          simpa using this
        have hma : m ≠ a := fun hc => hp (hc ▸ hkm)
        simp only []
        rw [indexOf_cons_ne_nat l hma, Nat.add_assoc, Nat.add_comm 1]

/-- Modelled from the spec's words (§4.2): the start index is the index of the
*smallest* sorted position ≥ `hash(key)`, wrapping to index 0 when no position
qualifies. -/
def HashRing.spec_start (ring : HashRing) (keyHash : Nat) : Nat :=
  match (ring.sorted_hashes.filter (fun p => decide (keyHash ≤ p))).min? with
  | some m => ring.sorted_hashes.indexOf m
  | none => 0

/-- Modelled from the spec's words (§4.2 `get_nodes`): for an empty ring the
result is empty; otherwise walk forward from the smallest position ≥
`hash(key)` with wrap-around, emitting each node_id the first time it is seen,
and stop after `count` distinct node_ids. -/
def HashRing.get_nodes_spec (ring : HashRing) (keyHash : Nat) (replicas : Nat) :
    List String :=
  if ring.nodes.isEmpty then []
  else (firstSeen (ring.visitSeq (ring.spec_start keyHash))).take replicas

/-- C6: for every (well-formed) ring state, key hash and count, `get_nodes`
returns `min count |ring|` pairwise-distinct node_ids. -/
theorem C6_replica_set_size {h : String → Nat} {ring : HashRing}
    (hw : ring.WF h) (keyHash replicas : Nat) :
    (ring.get_nodes keyHash replicas).length = min replicas ring.nodes.length ∧
    (ring.get_nodes keyHash replicas).Nodup := by
  by_cases hne : ring.nodes = []
  · simp [HashRing.get_nodes, hne]
  · have hni : ring.nodes.isEmpty = false := by
      simp [List.isEmpty_iff, hne]
    obtain ⟨hlen, hnd⟩ :=
      visited_length_nodup hw hne (scanStartAux keyHash ring.sorted_hashes 0)
    rw [HashRing.get_nodes, if_neg (by simp [hni])]
    rw [ringWalk_eq_take ring.nodes.length replicas _ []
      (by simpa using hnd) (by simp [hlen])]
    constructor
    · simp [List.length_take, hlen]
    · exact (List.take_sublist _ _).nodup (by simpa using hnd)

/-- C6 witness: a concrete two-node ring. -/
theorem C6_replica_set_size_witness :
    (HashRing.get_nodes ⟨[(1, "a"), (2, "bb")], [1, 2]⟩ 5 3).length
        = min 3 2 ∧
    (HashRing.get_nodes ⟨[(1, "a"), (2, "bb")], [1, 2]⟩ 5 3).Nodup :=
  C6_replica_set_size (h := String.length)
    ⟨by decide, by decide, by decide, by decide⟩ 5 3

/-- C5: on every well-formed ring, `get_nodes` behaves exactly as the spec
describes: empty ring ↦ empty list; otherwise start at the smallest ring
position ≥ `hash(key)` (wrapping to the first sorted position when none
qualifies), walk forward with wrap-around emitting each node_id the first
time it is seen, and stop after `count` distinct node_ids. -/
theorem C5_get_nodes_matches_spec {h : String → Nat} {ring : HashRing}
    (hw : ring.WF h) (keyHash replicas : Nat) :
    ring.get_nodes keyHash replicas = ring.get_nodes_spec keyHash replicas := by
  by_cases hne : ring.nodes = []
  · simp [HashRing.get_nodes, HashRing.get_nodes_spec, hne]
  · have hni : ring.nodes.isEmpty = false := by
      simp [List.isEmpty_iff, hne]
    have hstart : scanStartAux keyHash ring.sorted_hashes 0
        = ring.spec_start keyHash := by
      rw [scanStartAux_spec, HashRing.spec_start,
        sorted_min?_eq_head? _ (hw.sorted.filter _)]
      cases (ring.sorted_hashes.filter (fun p => decide (keyHash ≤ p))).head? with
      | none => rfl
      | some m => simp
    obtain ⟨hlen, hnd⟩ :=
      visited_length_nodup hw hne (scanStartAux keyHash ring.sorted_hashes 0)
    rw [HashRing.get_nodes, HashRing.get_nodes_spec,
      if_neg (by simp [hni]), if_neg (by simp [hni]), ← hstart,
      firstSeen_of_nodup _ hnd]
    rw [ringWalk_eq_take ring.nodes.length replicas _ []
      (by simpa using hnd) (by simp [hlen])]
    simp

/-- C5 witness: the refinement instantiated on a concrete two-node ring. -/
theorem C5_get_nodes_matches_spec_witness :
    HashRing.get_nodes ⟨[(1, "a"), (2, "bb")], [1, 2]⟩ 2 1
      = HashRing.get_nodes_spec ⟨[(1, "a"), (2, "bb")], [1, 2]⟩ 2 1 :=
  C5_get_nodes_matches_spec (h := String.length)
    ⟨by decide, by decide, by decide, by decide⟩ 2 1

/-! ## Local store (`simple_store.py`) -/

abbrev Store := List (String × String)

def Store.get (s : Store) (k : String) : Option String := List.lookup k s

def Store.put (s : Store) (k v : String) : Store := dinsert s k v

/-- `SimpleKVStore.delete`: remove the key and report whether it existed. -/
def Store.delete (s : Store) (k : String) : Bool × Store :=
  if s.any (fun kv => kv.1 = k) then
    (true, s.filter (fun kv => decide (kv.1 ≠ k)))
  else (false, s)

/-! ## Node state (`distributed_node.py`)

A `Cluster` is one node's view plus a model of its environment: `stores`
gives every node's local store (indexed by node_id) and `reachable` says
whether an RPC to a given peer completes (an unreachable peer raises, which
the coordinator catches). -/

structure Cluster where
  selfId : String
  hashFn : String → Nat
  rf : Nat
  peers : List (String × String)
  ring : HashRing
  stores : String → Store
  reachable : String → Bool

/-- The state of a node right after `DistributedNode.start`: the node has
added itself to its own ring and peer table. -/
def node_start (h : String → Nat) (selfId addr : String) (rf : Nat)
    (stores : String → Store) (reachable : String → Bool) : Cluster :=
  { selfId := selfId, hashFn := h, rf := rf,
    peers := [(selfId, addr)],
    ring := HashRing.add_node h HashRing.empty selfId,
    stores := stores, reachable := reachable }

/-- `handle_join`: validate the body, then record the joiner in the peer
table and ring.  (The best-effort `notify_join` fan-out to other peers does
not change this node's state.) -/
def handle_join (c : Cluster) (pid paddr : String) : Cluster :=
  if pid = "" ∨ paddr = "" then c
  else { c with peers := dinsert c.peers pid paddr,
                ring := HashRing.add_node c.hashFn c.ring pid }

/-- `handle_notify_join`: validate the body, then add the announced peer to
the peer table and ring only if it is not already known. -/
def handle_notify_join (c : Cluster) (pid paddr : String) : Cluster :=
  if pid = "" ∨ paddr = "" then c
  else if c.peers.any (fun kv => kv.1 = pid) then c
  else { c with peers := c.peers ++ [(pid, paddr)],
                ring := HashRing.add_node c.hashFn c.ring pid }

/-- `join_cluster`, step 5: merge the peer table returned by the contact
node, skipping self and already-known entries. -/
def join_cluster_merge (c : Cluster) (returned : List (String × String)) :
    Cluster :=
  returned.foldl (fun acc kv =>
    if kv.1 ≠ acc.selfId ∧ ¬ acc.peers.any (fun p => p.1 = kv.1) then
      { acc with peers := acc.peers ++ [kv],
                 ring := HashRing.add_node acc.hashFn acc.ring kv.1 }
    else acc) c

/-- The §3 peer-table invariant: every node_id in the hash ring appears in
the peer table of the same node. -/
abbrev RingPeersInv (c : Cluster) : Prop :=
  ∀ nid ∈ c.ring.nodes.map Prod.snd, nid ∈ c.peers.map Prod.fst

/-! ### `dinsert` membership lemmas -/

theorem dinsert_fst_eq_of_any {κ ν : Type} [DecidableEq κ]
    {l : List (κ × ν)} {k : κ} {v : ν}
    (h : l.any (fun kv => decide (kv.1 = k)) = true) :
    (dinsert l k v).map Prod.fst = l.map Prod.fst := by
  rw [dinsert, if_pos (by simpa using h), List.map_map]
  apply List.map_congr_left
  intro kv _
  by_cases hk : kv.1 = k
  · simp [hk]
  · simp [hk]

theorem dinsert_fst_mem {κ ν : Type} [DecidableEq κ]
    (l : List (κ × ν)) (k : κ) (v : ν) :
    (∀ x ∈ l.map Prod.fst, x ∈ (dinsert l k v).map Prod.fst) ∧
      k ∈ (dinsert l k v).map Prod.fst := by
  by_cases h : l.any (fun kv => decide (kv.1 = k)) = true
  · rw [dinsert_fst_eq_of_any h]
    refine ⟨fun x hx => hx, ?_⟩
    obtain ⟨kv, hkv, hk⟩ := List.any_eq_true.mp h
    exact List.mem_map.mpr ⟨kv, hkv, of_decide_eq_true hk⟩
  · rw [dinsert, if_neg (by simpa using h)]
    constructor
    · intro x hx
      rw [List.map_append]
      exact List.mem_append.mpr (Or.inl hx)
    · rw [List.map_append]
      exact List.mem_append.mpr (Or.inr (by simp))

theorem dinsert_snd_subset {κ ν : Type} [DecidableEq κ]
    {l : List (κ × ν)} {k : κ} {v : ν} :
    ∀ x ∈ (dinsert l k v).map Prod.snd, x ∈ l.map Prod.snd ∨ x = v := by
  intro x hx
  rw [dinsert] at hx
  split at hx
  · rw [List.map_map] at hx
    obtain ⟨kv, hkv, hval⟩ := List.mem_map.mp hx
    by_cases hk : kv.1 = k
    · right
      rw [← hval]
      simp [Function.comp, hk]
    · left
      refine List.mem_map.mpr ⟨kv, hkv, ?_⟩
      rw [← hval]
      simp [Function.comp, hk]
  · rw [List.map_append] at hx
    rcases List.mem_append.mp hx with h1 | h1
    · exact Or.inl h1
    · right; simpa using h1

/-- C7: `handle_notify_join` is idempotent — a second identical notification
leaves the node state (peer table and ring included) unchanged. -/
theorem C7_notify_join_idempotent (c : Cluster) (pid paddr : String) :
    handle_notify_join (handle_notify_join c pid paddr) pid paddr
      = handle_notify_join c pid paddr := by
  by_cases hval : pid = "" ∨ paddr = ""
  · simp only [handle_notify_join, if_pos hval]
  · by_cases hmem : c.peers.any (fun kv => decide (kv.1 = pid)) = true
    · simp only [handle_notify_join, if_neg hval, hmem, if_true]
    · have hsecond : ((c.peers ++ [(pid, paddr)]).any
          (fun kv => decide (kv.1 = pid))) = true := by
        simp
      simp only [handle_notify_join, if_neg hval, hmem, Bool.false_eq_true,
        if_false, hsecond, if_true]

/-- C8: the ring-⊆-peers invariant holds right after `start` and is preserved
by `handle_join`, `handle_notify_join`, and the merge step of
`join_cluster`. -/
theorem C8_ring_ids_in_peer_table :
    (∀ (h : String → Nat) (selfId addr : String) (rf : Nat)
        (st : String → Store) (rbl : String → Bool),
      RingPeersInv (node_start h selfId addr rf st rbl)) ∧
    (∀ (c : Cluster) (pid paddr : String),
      RingPeersInv c → RingPeersInv (handle_join c pid paddr)) ∧
    (∀ (c : Cluster) (pid paddr : String),
      RingPeersInv c → RingPeersInv (handle_notify_join c pid paddr)) ∧
    (∀ (c : Cluster) (returned : List (String × String)),
      RingPeersInv c → RingPeersInv (join_cluster_merge c returned)) := by
  refine ⟨?_, ?_, ?_, ?_⟩
  · intro h selfId addr rf st rbl nid hnid
    simp only [node_start, HashRing.add_node_nodes] at hnid ⊢
    rcases dinsert_snd_subset nid hnid with hc | hc
    · simp [HashRing.empty] at hc
    · simp [hc]
  · intro c pid paddr hinv nid hnid
    rw [handle_join] at hnid ⊢
    by_cases hval : pid = "" ∨ paddr = ""
    · rw [if_pos hval] at hnid ⊢; exact hinv nid hnid
    · rw [if_neg hval] at hnid ⊢
      rw [HashRing.add_node_nodes] at hnid
      rcases dinsert_snd_subset nid hnid with hc | hc
      · exact (dinsert_fst_mem c.peers pid paddr).1 nid (hinv nid hc)
      · rw [hc]; exact (dinsert_fst_mem c.peers pid paddr).2
  · intro c pid paddr hinv nid hnid
    rw [handle_notify_join] at hnid ⊢
    by_cases hval : pid = "" ∨ paddr = ""
    · rw [if_pos hval] at hnid ⊢; exact hinv nid hnid
    · rw [if_neg hval] at hnid ⊢
      by_cases hmem : c.peers.any (fun kv => decide (kv.1 = pid)) = true
      · rw [if_pos hmem] at hnid ⊢; exact hinv nid hnid
      · rw [if_neg hmem] at hnid ⊢
        rw [HashRing.add_node_nodes] at hnid
        rcases dinsert_snd_subset nid hnid with hc | hc
        · simp only [List.map_append]
          exact List.mem_append.mpr (Or.inl (hinv nid hc))
        · simp [hc]
  · intro c returned
    induction returned generalizing c with
    | nil => intro hinv; simpa [join_cluster_merge] using hinv
    | cons kv rest ih =>
      intro hinv
      rw [show join_cluster_merge c (kv :: rest) = join_cluster_merge
        (if kv.1 ≠ c.selfId ∧ ¬ c.peers.any (fun p => p.1 = kv.1) then
          { c with peers := c.peers ++ [kv],
                   ring := HashRing.add_node c.hashFn c.ring kv.1 }
         else c) rest from rfl]
      split
      · apply ih
        intro nid hnid
        rw [HashRing.add_node_nodes] at hnid
        rcases dinsert_snd_subset nid hnid with hc | hc
        · simp only [List.map_append]
          exact List.mem_append.mpr (Or.inl (hinv nid hc))
        · simp [hc]
      · exact ih c hinv

/-- A small concrete node state used by witnesses: a one-node cluster whose
ring and peer table agree. -/
def demoCluster : Cluster :=
  { selfId := "n1", hashFn := String.length, rf := 3,
    peers := [("n1", "http1")],
    ring := ⟨[(2, "n1")], [2]⟩,
    stores := fun _ => [], reachable := fun _ => true }

/-- C8 witness: the preservation statement applied to a concrete join. -/
theorem C8_ring_ids_in_peer_table_witness :
    RingPeersInv (handle_join demoCluster "n2" "http2") :=
  C8_ring_ids_in_peer_table.2.1 demoCluster "n2" "http2" (by decide)

/-! ## Coordinator reads (`distributed_node.py`) -/

/-- `_get_replica_nodes`. -/
def replicaNodes (c : Cluster) (key : String) : List String :=
  c.ring.get_nodes (c.hashFn key) c.rf

/-- The value a read loop obtains from replica `n`: a local `store.get` when
`n` is self; a `GET /internal/store/{key}` (200 + value iff present) when `n`
is a known, reachable peer; nothing otherwise (unknown peer is skipped,
unreachable peer raises and is caught). -/
def nodeReadVal (c : Cluster) (key : String) (n : String) : Option String :=
  if n = c.selfId then Store.get (c.stores c.selfId) key
  else if (c.peers.any (fun kv => kv.1 = n)) ∧ c.reachable n then
    Store.get (c.stores n) key
  else none

/-- The collection loop of `_read_from_all_replicas`: walk the replica list,
appending each non-absent value and its source node. -/
def collectAll (f : String → Option String) :
    List String → List String × List String → List String × List String
  | [], acc => acc
  | n :: rest, acc =>
    match f n with
    | some v => collectAll f rest (acc.1 ++ [v], acc.2 ++ [n])
    | none => collectAll f rest acc

def read_from_all_replicas (c : Cluster) (key : String) :
    List String × List String :=
  collectAll (nodeReadVal c key) (replicaNodes c key) ([], [])

/-- The collection loop of `_read_from_quorum_replicas`: as `collectAll`, but
stop as soon as `required` values have been gathered. -/
def collectQuorum (f : String → Option String) (required : Nat) :
    List String → List String × List String → List String × List String
  | [], acc => acc
  | n :: rest, acc =>
    if required ≤ acc.1.length then acc
    else
      match f n with
      | some v => collectQuorum f required rest (acc.1 ++ [v], acc.2 ++ [n])
      | none => collectQuorum f required rest acc

def read_from_quorum_replicas (c : Cluster) (key : String) :
    List String × List String :=
  collectQuorum (nodeReadVal c key) ((replicaNodes c key).length / 2 + 1)
    (replicaNodes c key) ([], [])

/-- `_read_from_replicas` (the `one` read path): self first when self is a
replica and holds the key, then the other replicas in order. -/
def read_from_replicas (c : Cluster) (key : String) :
    Option (String × String) :=
  if c.selfId ∈ replicaNodes c key ∧ (Store.get (c.stores c.selfId) key).isSome
  then (Store.get (c.stores c.selfId) key).map (fun v => (v, c.selfId))
  else
    (replicaNodes c key).findSome? (fun n =>
      if n ≠ c.selfId then (nodeReadVal c key n).map (fun v => (v, n))
      else none)

/-- `collections.Counter(l)` items: first-occurrence order, each with its
multiplicity in `l`. -/
def counter_items {α : Type} [DecidableEq α] (l : List α) : List (α × Nat) :=
  (firstSeen l).map (fun v => (v, countOcc l v))

/-- `Counter(l).most_common(1)[0][0]`: scan the counter items keeping the
entry with the largest count, replacing only on a strictly larger count
(`heapq.nlargest` is stable, so earlier insertions win ties). -/
def most_common1 {α : Type} [DecidableEq α] (l : List α) : Option α :=
  match counter_items l with
  | [] => none
  | x :: xs => some ((xs.foldl (fun b y => if b.2 < y.2 then y else b) x).1)

/-- A successful GET reply body. -/
structure GetOk where
  key : String
  value : String
  consistency_level : String
  sources : List String
  deriving DecidableEq

/-- The observable outcome of `handle_get`: 200, 409 or 404. -/
inductive GetResp where
  | ok (r : GetOk)
  | conflict (values_found : List String) (source_nodes : List String)
  | notFound
  deriving DecidableEq

def GetResp.status : GetResp → Nat
  | .ok _ => 200
  | .conflict _ _ => 409
  | .notFound => 404

/-- `handle_get`: dispatch on the `consistency` query parameter
(default `one`; anything that is neither `all` nor `quorum` takes the
final `else` branch). -/
def handle_get (c : Cluster) (key : String) (consistency : Option String) :
    GetResp :=
  let lvl := consistency.getD "one"
  if lvl = "all" then
    let vs := read_from_all_replicas c key
    if vs.1 ≠ [] then
      if (firstSeen vs.1).length = 1 then
        .ok ⟨key, (firstSeen vs.1).headD "", "all", vs.2⟩
      else .conflict (firstSeen vs.1) vs.2
    else .notFound
  else if lvl = "quorum" then
    let vs := read_from_quorum_replicas c key
    if vs.1 ≠ [] then
      .ok ⟨key, (most_common1 vs.1).getD "", "quorum", vs.2⟩
    else .notFound
  else
    match read_from_replicas c key with
    | some vn => .ok ⟨key, vn.1, "one", [vn.2]⟩
    | none => .notFound

/-! ## Coordinator writes -/

/-- `_check_write_consistency` (Boolean verdict plus reason; the counts in
the source's f-string messages are omitted). -/
def check_write_consistency (successful attempted : Nat) (lvl : String) :
    Bool × String :=
  if lvl = "all" then
    if successful = attempted then
      (true, "All attempted replicas written successfully")
    else (false, "Only some replicas written (need all)")
  else if lvl = "quorum" then
    if successful = attempted then (true, "Quorum achieved")
    else (false, "Quorum not achieved")
  else if lvl = "one" then
    if 1 ≤ successful then (true, "At least one replica written")
    else (false, "No replicas written successfully")
  else
    if successful = attempted then (true, "Consistency achieved")
    else (false, "Unknown consistency level")

/-- Target selection of `_replicate_to_peers`: required count and target
list per consistency level; unknown levels fall to the final `else`, which
mirrors the `quorum` arm. -/
def select_write_targets (replica_nodes : List String) (lvl : String) :
    Nat × List String :=
  if lvl = "all" then (replica_nodes.length, replica_nodes)
  else if lvl = "quorum" then
    (replica_nodes.length / 2 + 1,
      replica_nodes.take (replica_nodes.length / 2 + 1))
  else if lvl = "one" then (1, replica_nodes.take 1)
  else
    (replica_nodes.length / 2 + 1,
      replica_nodes.take (replica_nodes.length / 2 + 1))

/-- `PUT /internal/store/{key}` with a present value: store locally,
reply 200. -/
def handle_internal_store_put (s : Store) (key value : String) :
    Nat × Store :=
  (200, Store.put s key value)

/-- `DELETE /internal/delete/{key}`: always replies 200, reporting whether
the key existed. -/
def handle_internal_delete (s : Store) (key : String) : Nat × Bool × Store :=
  (200, (Store.delete s key).1, (Store.delete s key).2)

def updateStores (st : String → Store) (n : String) (s : Store) :
    String → Store :=
  fun m => if m = n then s else st m

/-- The PUT fan-out loop of `_replicate_to_peers`: accumulator is
`(successful_replicas, errors, all stores)`.  Self stores locally and counts
a success; a known reachable peer is sent an internal PUT and counts a
success iff it replies 200 (which `handle_internal_store_put` always does);
an unknown or unreachable peer contributes an error. -/
def put_go (c : Cluster) (key value : String) :
    List String → Nat × List String × (String → Store) →
      Nat × List String × (String → Store)
  | [], acc => acc
  | n :: rest, acc =>
    if n = c.selfId then
      put_go c key value rest
        (acc.1 + 1, acc.2.1,
          updateStores acc.2.2 n (Store.put (acc.2.2 n) key value))
    else if c.peers.any (fun kv => kv.1 = n) then
      if c.reachable n then
        if (handle_internal_store_put (acc.2.2 n) key value).1 = 200 then
          put_go c key value rest
            (acc.1 + 1, acc.2.1,
              updateStores acc.2.2 n
                (handle_internal_store_put (acc.2.2 n) key value).2)
        else put_go c key value rest (acc.1, acc.2.1 ++ [n], acc.2.2)
      else put_go c key value rest (acc.1, acc.2.1 ++ [n], acc.2.2)
    else put_go c key value rest (acc.1, acc.2.1 ++ [n], acc.2.2)

/-- The DELETE fan-out loop of `_replicate_to_peers`: the local
`store.delete` return value is ignored and self always counts a success;
a known reachable peer counts a success iff the internal delete replies 200
(which it always does). -/
def delete_go (c : Cluster) (key : String) :
    List String → Nat × List String × (String → Store) →
      Nat × List String × (String → Store)
  | [], acc => acc
  | n :: rest, acc =>
    if n = c.selfId then
      delete_go c key rest
        (acc.1 + 1, acc.2.1,
          updateStores acc.2.2 n (Store.delete (acc.2.2 n) key).2)
    else if c.peers.any (fun kv => kv.1 = n) then
      if c.reachable n then
        if (handle_internal_delete (acc.2.2 n) key).1 = 200 then
          delete_go c key rest
            (acc.1 + 1, acc.2.1,
              updateStores acc.2.2 n (handle_internal_delete (acc.2.2 n) key).2.2)
        else delete_go c key rest (acc.1, acc.2.1 ++ [n], acc.2.2)
      else delete_go c key rest (acc.1, acc.2.1 ++ [n], acc.2.2)
    else delete_go c key rest (acc.1, acc.2.1 ++ [n], acc.2.2)

/-- The result of `_replicate_to_peers`: `(successful_replicas, errors,
len(target_nodes))`, plus the post-state of every store. -/
structure RepResult where
  successful : Nat
  errors : List String
  attempted : Nat
  stores : String → Store

def replicate_to_peers_put (c : Cluster) (key value lvl : String) :
    RepResult :=
  let targets := (select_write_targets (replicaNodes c key) lvl).2
  let r := put_go c key value targets (0, [], c.stores)
  ⟨r.1, r.2.1, targets.length, r.2.2⟩

def replicate_to_peers_delete (c : Cluster) (key lvl : String) : RepResult :=
  let targets := (select_write_targets (replicaNodes c key) lvl).2
  let r := delete_go c key targets (0, [], c.stores)
  ⟨r.1, r.2.1, targets.length, r.2.2⟩

/-- The observable outcome of `handle_put` / `handle_delete`:
200, 500 or 400. -/
inductive WriteResp where
  | ok (successful attempted total_possible : Nat) (level : String)
      (errors : List String)
  | failed (successful attempted total_possible : Nat) (level : String)
      (errors : List String)
  | badRequest
  deriving DecidableEq

def WriteResp.status : WriteResp → Nat
  | .ok .. => 200
  | .failed .. => 500
  | .badRequest => 400

/-- `handle_put`: missing value ⇒ 400; otherwise replicate at the requested
level (default `quorum`) and gate the reply on
`_check_write_consistency`. -/
def handle_put (c : Cluster) (key : String) (value : Option String)
    (consistency : Option String) : WriteResp :=
  match value with
  | none => .badRequest
  | some v =>
    let lvl := consistency.getD "quorum"
    let rep := replicate_to_peers_put c key v lvl
    let total := (replicaNodes c key).length
    if (check_write_consistency rep.successful rep.attempted lvl).1 then
      .ok rep.successful rep.attempted total lvl rep.errors
    else .failed rep.successful rep.attempted total lvl rep.errors

/-- `handle_delete`: replicate the delete at the requested level (default
`quorum`) and gate the reply on `_check_write_consistency`. -/
def handle_delete (c : Cluster) (key : String) (consistency : Option String) :
    WriteResp :=
  let lvl := consistency.getD "quorum"
  let rep := replicate_to_peers_delete c key lvl
  let total := (replicaNodes c key).length
  if (check_write_consistency rep.successful rep.attempted lvl).1 then
    .ok rep.successful rep.attempted total lvl rep.errors
  else .failed rep.successful rep.attempted total lvl rep.errors

/-! ## Write fan-out accounting -/

/-- A write RPC to target `n` succeeds exactly when `n` is self (local store
operations cannot fail) or a known, reachable peer (both internal write
endpoints always reply 200). -/
def write_target_ok (c : Cluster) (n : String) : Bool :=
  n == c.selfId || (c.peers.any (fun kv => kv.1 = n) && c.reachable n)

theorem put_go_spec (c : Cluster) (key value : String) :
    ∀ (l : List String) (acc : Nat × List String × (String → Store)),
      (put_go c key value l acc).1 = acc.1 + l.countP (write_target_ok c) ∧
      (put_go c key value l acc).2.1
        = acc.2.1 ++ l.filter (fun n => ! write_target_ok c n) := by
  intro l
  induction l with
  | nil => intro acc; simp [put_go]
  | cons n rest ih =>
    intro acc
    by_cases hself : n = c.selfId
    · have hok : write_target_ok c n = true := by
        simp [write_target_ok, hself]
      constructor
      · simp only [put_go, if_pos hself]
        rw [(ih _).1]
        simp [List.countP_cons, hok]
        omega
      · simp only [put_go, if_pos hself]
        rw [(ih _).2]
        simp [List.filter_cons, hok]
    · by_cases hpeers : (c.peers.any (fun kv => decide (kv.1 = n))) = true
      · by_cases hreach : c.reachable n = true
        · have hok : write_target_ok c n = true := by
            simp [write_target_ok, hpeers, hreach]
          constructor
          · simp only [put_go, if_neg hself, hpeers, if_true, hreach,
              handle_internal_store_put]
            rw [(ih _).1]
            simp [List.countP_cons, hok]
            omega
          · simp only [put_go, if_neg hself, hpeers, if_true, hreach,
              handle_internal_store_put]
            rw [(ih _).2]
            simp [List.filter_cons, hok]
        · have hok : write_target_ok c n = false := by
            simp only [write_target_ok, Bool.or_eq_false_iff,
              Bool.and_eq_false_iff]
            exact ⟨beq_eq_false_iff_ne.mpr hself,
              Or.inr (by simpa only [Bool.not_eq_true] using hreach)⟩
          constructor
          · simp only [put_go, if_neg hself, hpeers, if_true, if_neg hreach]
            rw [(ih _).1]
            simp [List.countP_cons, hok]
          · simp only [put_go, if_neg hself, hpeers, if_true, if_neg hreach]
            rw [(ih _).2]
            simp [List.filter_cons, hok]
      · have hok : write_target_ok c n = false := by
          simp only [write_target_ok, Bool.or_eq_false_iff,
            Bool.and_eq_false_iff]
          exact ⟨beq_eq_false_iff_ne.mpr hself,
            Or.inl (by simpa only [Bool.not_eq_true] using hpeers)⟩
        constructor
        · simp only [put_go, if_neg hself, if_neg hpeers]
          rw [(ih _).1]
          simp [List.countP_cons, hok]
        · simp only [put_go, if_neg hself, if_neg hpeers]
          rw [(ih _).2]
          simp [List.filter_cons, hok]

theorem delete_go_spec (c : Cluster) (key : String) :
    ∀ (l : List String) (acc : Nat × List String × (String → Store)),
      (delete_go c key l acc).1 = acc.1 + l.countP (write_target_ok c) ∧
      (delete_go c key l acc).2.1
        = acc.2.1 ++ l.filter (fun n => ! write_target_ok c n) := by
  intro l
  induction l with
  | nil => intro acc; simp [delete_go]
  | cons n rest ih =>
    intro acc
    by_cases hself : n = c.selfId
    · have hok : write_target_ok c n = true := by
        simp [write_target_ok, hself]
      constructor
      · simp only [delete_go, if_pos hself]
        rw [(ih _).1]
        simp [List.countP_cons, hok]
        omega
      · simp only [delete_go, if_pos hself]
        rw [(ih _).2]
        simp [List.filter_cons, hok]
    · by_cases hpeers : (c.peers.any (fun kv => decide (kv.1 = n))) = true
      · by_cases hreach : c.reachable n = true
        · have hok : write_target_ok c n = true := by
            simp [write_target_ok, hpeers, hreach]
          constructor
          · simp only [delete_go, if_neg hself, hpeers, if_true, hreach,
              handle_internal_delete]
            rw [(ih _).1]
            simp [List.countP_cons, hok]
            omega
          · simp only [delete_go, if_neg hself, hpeers, if_true, hreach,
              handle_internal_delete]
            rw [(ih _).2]
            simp [List.filter_cons, hok]
        · have hok : write_target_ok c n = false := by
            simp only [write_target_ok, Bool.or_eq_false_iff,
              Bool.and_eq_false_iff]
            exact ⟨beq_eq_false_iff_ne.mpr hself,
              Or.inr (by simpa only [Bool.not_eq_true] using hreach)⟩
          constructor
          · simp only [delete_go, if_neg hself, hpeers, if_true, if_neg hreach]
            rw [(ih _).1]
            simp [List.countP_cons, hok]
          · simp only [delete_go, if_neg hself, hpeers, if_true, if_neg hreach]
            rw [(ih _).2]
            simp [List.filter_cons, hok]
      · have hok : write_target_ok c n = false := by
          simp only [write_target_ok, Bool.or_eq_false_iff,
            Bool.and_eq_false_iff]
          exact ⟨beq_eq_false_iff_ne.mpr hself,
            Or.inl (by simpa only [Bool.not_eq_true] using hpeers)⟩
        constructor
        · simp only [delete_go, if_neg hself, if_neg hpeers]
          rw [(ih _).1]
          simp [List.countP_cons, hok]
        · simp only [delete_go, if_neg hself, if_neg hpeers]
          rw [(ih _).2]
          simp [List.filter_cons, hok]

/-! ### Per-level shapes of target selection and the consistency check -/

theorem select_write_targets_all (R : List String) :
    select_write_targets R "all" = (R.length, R) := by
  rw [select_write_targets, if_pos rfl]

theorem select_write_targets_quorum (R : List String) :
    select_write_targets R "quorum"
      = (R.length / 2 + 1, R.take (R.length / 2 + 1)) := by
  rw [select_write_targets, if_neg (by decide), if_pos rfl]

theorem select_write_targets_one (R : List String) :
    select_write_targets R "one" = (1, R.take 1) := by
  rw [select_write_targets, if_neg (by decide), if_neg (by decide), if_pos rfl]

theorem select_write_targets_unknown (R : List String) (lvl : String)
    (h1 : lvl ≠ "all") (h2 : lvl ≠ "quorum") (h3 : lvl ≠ "one") :
    select_write_targets R lvl
      = (R.length / 2 + 1, R.take (R.length / 2 + 1)) := by
  rw [select_write_targets, if_neg h1, if_neg h2, if_neg h3]

theorem select_write_targets_subset (R : List String) (lvl : String) :
    ∀ n ∈ (select_write_targets R lvl).2, n ∈ R := by
  intro n hn
  by_cases h1 : lvl = "all"
  · rw [h1, select_write_targets_all] at hn; exact hn
  · by_cases h2 : lvl = "quorum"
    · rw [h2, select_write_targets_quorum] at hn
      exact List.take_subset _ _ hn
    · by_cases h3 : lvl = "one"
      · rw [h3, select_write_targets_one] at hn
        exact List.take_subset _ _ hn
      · rw [select_write_targets_unknown R lvl h1 h2 h3] at hn
        exact List.take_subset _ _ hn

theorem check_all_iff (s a : Nat) :
    (check_write_consistency s a "all").1 = true ↔ s = a := by
  rw [check_write_consistency, if_pos rfl]
  by_cases h : s = a <;> simp [h]

theorem check_quorum_iff (s a : Nat) :
    (check_write_consistency s a "quorum").1 = true ↔ s = a := by
  rw [check_write_consistency, if_neg (by decide), if_pos rfl]
  by_cases h : s = a <;> simp [h]

theorem check_one_iff (s a : Nat) :
    (check_write_consistency s a "one").1 = true ↔ 1 ≤ s := by
  rw [check_write_consistency, if_neg (by decide), if_neg (by decide),
    if_pos rfl]
  by_cases h : 1 ≤ s <;> simp [h]

theorem check_unknown_iff (s a : Nat) (lvl : String)
    (h1 : lvl ≠ "all") (h2 : lvl ≠ "quorum") (h3 : lvl ≠ "one") :
    (check_write_consistency s a lvl).1 = true ↔ s = a := by
  rw [check_write_consistency, if_neg h1, if_neg h2, if_neg h3]
  by_cases h : s = a <;> simp [h]

/-! ### Unfolding the replicate results -/

theorem replicate_put_parts (c : Cluster) (key v lvl : String) :
    (replicate_to_peers_put c key v lvl).successful
      = ((select_write_targets (replicaNodes c key) lvl).2).countP
          (write_target_ok c) ∧
    (replicate_to_peers_put c key v lvl).errors
      = ((select_write_targets (replicaNodes c key) lvl).2).filter
          (fun n => ! write_target_ok c n) ∧
    (replicate_to_peers_put c key v lvl).attempted
      = ((select_write_targets (replicaNodes c key) lvl).2).length := by
  refine ⟨?_, ?_, rfl⟩
  · show (put_go c key v _ (0, [], c.stores)).1 = _
    rw [(put_go_spec c key v _ _).1]
    simp
  · show (put_go c key v _ (0, [], c.stores)).2.1 = _
    rw [(put_go_spec c key v _ _).2]
    simp

theorem replicate_delete_parts (c : Cluster) (key lvl : String) :
    (replicate_to_peers_delete c key lvl).successful
      = ((select_write_targets (replicaNodes c key) lvl).2).countP
          (write_target_ok c) ∧
    (replicate_to_peers_delete c key lvl).errors
      = ((select_write_targets (replicaNodes c key) lvl).2).filter
          (fun n => ! write_target_ok c n) ∧
    (replicate_to_peers_delete c key lvl).attempted
      = ((select_write_targets (replicaNodes c key) lvl).2).length := by
  refine ⟨?_, ?_, rfl⟩
  · show (delete_go c key _ (0, [], c.stores)).1 = _
    rw [(delete_go_spec c key _ _).1]
    simp
  · show (delete_go c key _ (0, [], c.stores)).2.1 = _
    rw [(delete_go_spec c key _ _).2]
    simp

theorem handle_put_status_iff (c : Cluster) (key v : String)
    (q : Option String) :
    ((handle_put c key (some v) q).status = 200 ↔
      (check_write_consistency
        (replicate_to_peers_put c key v (q.getD "quorum")).successful
        (replicate_to_peers_put c key v (q.getD "quorum")).attempted
        (q.getD "quorum")).1 = true) ∧
    ((handle_put c key (some v) q).status = 500 ↔
      ¬ (check_write_consistency
        (replicate_to_peers_put c key v (q.getD "quorum")).successful
        (replicate_to_peers_put c key v (q.getD "quorum")).attempted
        (q.getD "quorum")).1 = true) := by
  by_cases h : (check_write_consistency
      (replicate_to_peers_put c key v (q.getD "quorum")).successful
      (replicate_to_peers_put c key v (q.getD "quorum")).attempted
      (q.getD "quorum")).1 = true
  · constructor <;> simp [handle_put, h, WriteResp.status]
  · constructor <;> simp [handle_put, h, WriteResp.status]

theorem handle_delete_eq (c : Cluster) (key : String) (q : Option String) :
    handle_delete c key q
      = (if (check_write_consistency
            (replicate_to_peers_delete c key (q.getD "quorum")).successful
            (replicate_to_peers_delete c key (q.getD "quorum")).attempted
            (q.getD "quorum")).1 then
          WriteResp.ok (replicate_to_peers_delete c key (q.getD "quorum")).successful
            (replicate_to_peers_delete c key (q.getD "quorum")).attempted
            (replicaNodes c key).length (q.getD "quorum")
            (replicate_to_peers_delete c key (q.getD "quorum")).errors
        else
          WriteResp.failed (replicate_to_peers_delete c key (q.getD "quorum")).successful
            (replicate_to_peers_delete c key (q.getD "quorum")).attempted
            (replicaNodes c key).length (q.getD "quorum")
            (replicate_to_peers_delete c key (q.getD "quorum")).errors) := rfl

/-! ### C2: quorum writes -/

/-- C2: at `quorum`, the required count is `⌊n/2⌋+1`, the targets are exactly
the first `⌊n/2⌋+1` replicas, the attempted count is the size of that target
list, the write is reported successful (HTTP 200) iff every target
succeeded, and any single target failure yields a 500. -/
theorem C2_quorum_write (c : Cluster) (key v : String) :
    select_write_targets (replicaNodes c key) "quorum"
      = ((replicaNodes c key).length / 2 + 1,
         (replicaNodes c key).take ((replicaNodes c key).length / 2 + 1)) ∧
    (replicate_to_peers_put c key v "quorum").attempted
      = ((replicaNodes c key).take
          ((replicaNodes c key).length / 2 + 1)).length ∧
    ((handle_put c key (some v) (some "quorum")).status = 200 ↔
      ∀ n ∈ (replicaNodes c key).take ((replicaNodes c key).length / 2 + 1),
        write_target_ok c n = true) ∧
    ((∃ n ∈ (replicaNodes c key).take ((replicaNodes c key).length / 2 + 1),
        write_target_ok c n = false) →
      (handle_put c key (some v) (some "quorum")).status = 500) := by
  have htgt := select_write_targets_quorum (replicaNodes c key)
  have hparts := replicate_put_parts c key v "quorum"
  have hs : (replicate_to_peers_put c key v "quorum").successful
      = ((replicaNodes c key).take
          ((replicaNodes c key).length / 2 + 1)).countP (write_target_ok c) := by
    rw [hparts.1, htgt]
  have ha : (replicate_to_peers_put c key v "quorum").attempted
      = ((replicaNodes c key).take
          ((replicaNodes c key).length / 2 + 1)).length := by
    rw [hparts.2.2, htgt]
  have hiff : (handle_put c key (some v) (some "quorum")).status = 200 ↔
      ∀ n ∈ (replicaNodes c key).take ((replicaNodes c key).length / 2 + 1),
        write_target_ok c n = true := by
    rw [(handle_put_status_iff c key v (some "quorum")).1]
    simp only [Option.getD_some]
    rw [check_quorum_iff, hs, ha]
    exact List.countP_eq_length
  refine ⟨htgt, ha, hiff, ?_⟩
  intro ⟨n, hn, hfail⟩
  rw [(handle_put_status_iff c key v (some "quorum")).2]
  simp only [Option.getD_some]
  rw [check_quorum_iff, hs, ha]
  intro hcnt
  have := List.countP_eq_length.mp hcnt n hn
  rw [hfail] at this
  cases this

/-- C2 witness: a two-node cluster whose second quorum target is
unreachable: the quorum PUT is reported failed. -/
def failCluster : Cluster :=
  { selfId := "n1", hashFn := String.length, rf := 3,
    peers := [("n1", "http1"), ("m22", "http2")],
    ring := ⟨[(2, "n1"), (3, "m22")], [2, 3]⟩,
    stores := fun _ => [],
    reachable := fun n => n ≠ "m22" }

theorem C2_quorum_write_witness :
    (handle_put failCluster "k" (some "v") (some "quorum")).status = 500 :=
  (C2_quorum_write failCluster "k" "v").2.2.2 (by decide)

/-! ### C1: writes at an unknown consistency level -/

/-- C1 counterexample: the claim says a write at an unknown consistency
level is *always* reported as failed.  On a one-node cluster, a PUT at level
`"weird"` reaches its single (quorum-selected) target, the final `else` arm
of `_check_write_consistency` sees `successful == attempted` and returns
success, and the handler replies 200. -/
theorem C1_unknown_level_counterexample :
    "weird" ≠ "one" ∧ "weird" ≠ "quorum" ∧ "weird" ≠ "all" ∧
    (handle_put demoCluster "k" (some "v") (some "weird")).status = 200 := by
  refine ⟨by decide, by decide, by decide, by decide⟩

/-- C1 (amended): an unknown consistency level selects targets exactly as
`quorum` does, and the write is reported successful iff every selected
target succeeded — it is reported failed whenever at least one target
failed, not unconditionally. -/
theorem C1_unknown_level_amended (c : Cluster) (key v lvl : String)
    (h1 : lvl ≠ "one") (h2 : lvl ≠ "quorum") (h3 : lvl ≠ "all") :
    select_write_targets (replicaNodes c key) lvl
      = select_write_targets (replicaNodes c key) "quorum" ∧
    ((handle_put c key (some v) (some lvl)).status = 200 ↔
      ∀ n ∈ (replicaNodes c key).take ((replicaNodes c key).length / 2 + 1),
        write_target_ok c n = true) ∧
    ((∃ n ∈ (replicaNodes c key).take ((replicaNodes c key).length / 2 + 1),
        write_target_ok c n = false) →
      (handle_put c key (some v) (some lvl)).status = 500) := by
  have htgt := select_write_targets_unknown (replicaNodes c key) lvl h3 h2 h1
  have hparts := replicate_put_parts c key v lvl
  have hs : (replicate_to_peers_put c key v lvl).successful
      = ((replicaNodes c key).take
          ((replicaNodes c key).length / 2 + 1)).countP (write_target_ok c) := by
    rw [hparts.1, htgt]
  have ha : (replicate_to_peers_put c key v lvl).attempted
      = ((replicaNodes c key).take
          ((replicaNodes c key).length / 2 + 1)).length := by
    rw [hparts.2.2, htgt]
  refine ⟨by rw [htgt, select_write_targets_quorum], ?_, ?_⟩
  · rw [(handle_put_status_iff c key v (some lvl)).1]
    simp only [Option.getD_some]
    rw [check_unknown_iff _ _ lvl h3 h2 h1, hs, ha]
    exact List.countP_eq_length
  · intro ⟨n, hn, hfail⟩
    rw [(handle_put_status_iff c key v (some lvl)).2]
    simp only [Option.getD_some]
    rw [check_unknown_iff _ _ lvl h3 h2 h1, hs, ha]
    intro hcnt
    have := List.countP_eq_length.mp hcnt n hn
    rw [hfail] at this
    cases this

/-- C1 amended witness: instantiated at the level `"weird"` on a concrete
cluster. -/
theorem C1_unknown_level_amended_witness :
    select_write_targets (replicaNodes demoCluster "k") "weird"
      = select_write_targets (replicaNodes demoCluster "k") "quorum" ∧
    ((handle_put demoCluster "k" (some "v") (some "weird")).status = 200 ↔
      ∀ n ∈ (replicaNodes demoCluster "k").take
          ((replicaNodes demoCluster "k").length / 2 + 1),
        write_target_ok demoCluster n = true) ∧
    ((∃ n ∈ (replicaNodes demoCluster "k").take
          ((replicaNodes demoCluster "k").length / 2 + 1),
        write_target_ok demoCluster n = false) →
      (handle_put demoCluster "k" (some "v") (some "weird")).status = 500) :=
  C1_unknown_level_amended demoCluster "k" "v" "weird"
    (by decide) (by decide) (by decide)

/-! ### C9: deleting an absent key -/

theorem store_get_none_any (s : Store) (k : String)
    (h : Store.get s k = none) :
    (s.any (fun kv => kv.1 = k)) = false := by
  induction s with
  | nil => rfl
  | cons kv rest ih =>
    obtain ⟨k1, v1⟩ := kv
    by_cases hk : (k == k1) = true
    · exfalso
      simp only [Store.get, List.lookup, hk] at h
      cases h
    · have h' : Store.get rest k = none := by
        simpa only [Store.get, List.lookup, hk] using h
      have hne : ¬ k1 = k := by
        intro hc
        exact hk (by simp [hc])
      simp [List.any_cons, hne, ih h']

/-- C9: when a key is absent from every replica and all replicas are
reachable, a client DELETE at `one`, `quorum` or `all` is reported
successful with `successful_replicas = attempted_replicas` and no errors:
the local delete of an absent key still counts as a success, and the
internal delete endpoint replies 200 with `deleted = false` instead of an
error. -/
theorem C9_delete_absent_key_succeeds (c : Cluster) (key lvl : String)
    (hlvl : lvl = "one" ∨ lvl = "quorum" ∨ lvl = "all")
    (hne : replicaNodes c key ≠ [])
    (hok : ∀ n ∈ replicaNodes c key, write_target_ok c n = true)
    (habs : ∀ n : String, Store.get (c.stores n) key = none) :
    (∀ s : Store, Store.get s key = none →
      handle_internal_delete s key = (200, false, s)) ∧
    handle_delete c key (some lvl)
      = WriteResp.ok ((select_write_targets (replicaNodes c key) lvl).2.length)
          ((select_write_targets (replicaNodes c key) lvl).2.length)
          ((replicaNodes c key).length) lvl [] := by
  have hint : ∀ s : Store, Store.get s key = none →
      handle_internal_delete s key = (200, false, s) := by
    intro s hs
    have hany := store_get_none_any s key hs
    simp [handle_internal_delete, Store.delete, hany]
  have hsucc : (replicate_to_peers_delete c key lvl).successful
      = (select_write_targets (replicaNodes c key) lvl).2.length := by
    rw [(replicate_delete_parts c key lvl).1]
    exact List.countP_eq_length.mpr
      (fun n hn => hok n (select_write_targets_subset _ _ n hn))
  have hatt : (replicate_to_peers_delete c key lvl).attempted
      = (select_write_targets (replicaNodes c key) lvl).2.length :=
    (replicate_delete_parts c key lvl).2.2
  have herr : (replicate_to_peers_delete c key lvl).errors = [] := by
    rw [(replicate_delete_parts c key lvl).2.1]
    apply List.filter_eq_nil_iff.mpr
    intro a ha
    rw [hok a (select_write_targets_subset _ _ a ha)]
    simp
  have hchk : (check_write_consistency
      (replicate_to_peers_delete c key lvl).successful
      (replicate_to_peers_delete c key lvl).attempted lvl).1 = true := by
    rcases hlvl with h | h | h <;> subst h
    · rw [check_one_iff, hsucc, select_write_targets_one]
      have : 0 < (replicaNodes c key).length := List.length_pos.mpr hne
      simp only [List.length_take]
      omega
    · rw [check_quorum_iff, hsucc, hatt]
    · rw [check_all_iff, hsucc, hatt]
  refine ⟨hint, ?_⟩
  rw [handle_delete_eq]
  simp only [Option.getD_some]
  rw [if_pos hchk, hsucc, hatt, herr]

/-- C9 witness: a two-node, fully reachable cluster with empty stores; a
quorum DELETE of the absent key reports full success. -/
def emptyStoresCluster : Cluster :=
  { selfId := "n1", hashFn := String.length, rf := 3,
    peers := [("n1", "http1"), ("m22", "http2")],
    ring := ⟨[(2, "n1"), (3, "m22")], [2, 3]⟩,
    stores := fun _ => [],
    reachable := fun _ => true }

theorem C9_delete_absent_key_succeeds_witness :
    (∀ s : Store, Store.get s "k" = none →
      handle_internal_delete s "k" = (200, false, s)) ∧
    handle_delete emptyStoresCluster "k" (some "quorum")
      = WriteResp.ok
          ((select_write_targets (replicaNodes emptyStoresCluster "k") "quorum").2.length)
          ((select_write_targets (replicaNodes emptyStoresCluster "k") "quorum").2.length)
          ((replicaNodes emptyStoresCluster "k").length) "quorum" [] :=
  C9_delete_absent_key_succeeds emptyStoresCluster "k" "quorum"
    (by decide) (by decide) (by decide) (by intro n; rfl)

/-! ### C10: GET dispatch defaults to the `one` path -/

/-- C10: any GET whose consistency parameter (default `one`) is neither
`all` nor `quorum` runs the `one` read path, and a successful reply reports
`consistency_level = "one"`. -/
theorem C10_get_defaults_to_one (c : Cluster) (key : String)
    (q : Option String)
    (h1 : q.getD "one" ≠ "all") (h2 : q.getD "one" ≠ "quorum") :
    handle_get c key q
      = (match read_from_replicas c key with
         | some vn => GetResp.ok ⟨key, vn.1, "one", [vn.2]⟩
         | none => GetResp.notFound) ∧
    ∀ r : GetOk, handle_get c key q = GetResp.ok r →
      r.consistency_level = "one" := by
  have hmain : handle_get c key q
      = (match read_from_replicas c key with
         | some vn => GetResp.ok ⟨key, vn.1, "one", [vn.2]⟩
         | none => GetResp.notFound) := by
    simp only [handle_get]
    rw [if_neg h1, if_neg h2]
  refine ⟨hmain, ?_⟩
  intro r hr
  rw [hmain] at hr
  cases hfind : read_from_replicas c key with
  | none => rw [hfind] at hr; cases hr
  | some vn =>
    rw [hfind] at hr
    cases hr
    rfl

/-- C10 witness: a GET with no consistency parameter on a concrete
cluster. -/
theorem C10_get_defaults_to_one_witness :
    handle_get demoCluster "k" none
      = (match read_from_replicas demoCluster "k" with
         | some vn => GetResp.ok ⟨"k", vn.1, "one", [vn.2]⟩
         | none => GetResp.notFound) ∧
    ∀ r : GetOk, handle_get demoCluster "k" none = GetResp.ok r →
      r.consistency_level = "one" :=
  C10_get_defaults_to_one demoCluster "k" none (by decide) (by decide)

/-! ## Facts about `firstSeen` and the most-common element -/

theorem firstSeen_eq_nil_iff {α : Type} [DecidableEq α] (l : List α) :
    firstSeen l = [] ↔ l = [] := by
  cases l with
  | nil => simp [firstSeen]
  | cons v rest => rw [firstSeen]; simp

theorem firstSeen_mem_aux {α : Type} [DecidableEq α] :
    ∀ (n : Nat) (l : List α), l.length ≤ n →
      ∀ x, x ∈ firstSeen l ↔ x ∈ l := by
  intro n
  induction n with
  | zero =>
    intro l hl x
    have : l = [] := List.length_eq_zero.mp (Nat.le_zero.mp hl)
    subst this; simp [firstSeen]
  | succ n ih =>
    intro l hl x
    cases l with
    | nil => simp [firstSeen]
    | cons v rest =>
      have hlen : (rest.filter (fun w => decide (w ≠ v))).length ≤ n := by
        have h1 := List.length_filter_le (fun w => decide (w ≠ v)) rest
        simp only [List.length_cons] at hl
        omega
      rw [firstSeen]
      simp only [List.mem_cons]
      constructor
      · rintro (h | h)
        · exact Or.inl h
        · right
          have := (ih _ hlen x).mp h
          exact (List.mem_filter.mp this).1
      · rintro (h | h)
        · exact Or.inl h
        · by_cases hxv : x = v
          · exact Or.inl hxv
          · right
            exact (ih _ hlen x).mpr
              (List.mem_filter.mpr ⟨h, by simpa using hxv⟩)

theorem firstSeen_mem {α : Type} [DecidableEq α] (l : List α) (x : α) :
    x ∈ firstSeen l ↔ x ∈ l :=
  firstSeen_mem_aux l.length l (Nat.le_refl _) x

theorem firstSeen_nodup_aux {α : Type} [DecidableEq α] :
    ∀ (n : Nat) (l : List α), l.length ≤ n → (firstSeen l).Nodup := by
  intro n
  induction n with
  | zero =>
    intro l hl
    have : l = [] := List.length_eq_zero.mp (Nat.le_zero.mp hl)
    subst this; simp [firstSeen]
  | succ n ih =>
    intro l hl
    cases l with
    | nil => simp [firstSeen]
    | cons v rest =>
      have hlen : (rest.filter (fun w => decide (w ≠ v))).length ≤ n := by
        have h1 := List.length_filter_le (fun w => decide (w ≠ v)) rest
        simp only [List.length_cons] at hl
        omega
      rw [firstSeen, List.nodup_cons]
      refine ⟨?_, ih _ hlen⟩
      intro hv
      have := (firstSeen_mem _ _).mp hv
      have := (List.mem_filter.mp this).2
      simp at this

theorem firstSeen_all_eq {α : Type} [DecidableEq α] (v : α) (rest : List α)
    (hall : ∀ w ∈ rest, w = v) : firstSeen (v :: rest) = [v] := by
  rw [firstSeen]
  have : rest.filter (fun w => decide (w ≠ v)) = [] := by
    apply List.filter_eq_nil_iff.mpr
    intro a ha
    simp [hall a ha]
  rw [this]
  simp [firstSeen]

/-! ### `firstIdx` on a cons cell -/

theorem firstIdx_cons_self {α : Type} [DecidableEq α]
    (a : α) (l : List α) : firstIdx (a :: l) a = 0 := by
  simp [firstIdx, List.findIdx_cons]

theorem firstIdx_cons_ne {α : Type} [DecidableEq α]
    {m a : α} (l : List α) (h : m ≠ a) :
    firstIdx (a :: l) m = firstIdx l m + 1 := by
  have hd : (decide (a = m)) = false := by
    simp only [decide_eq_false_iff_not]
    exact fun hc => h hc.symm
  simp [firstIdx, List.findIdx_cons, hd]

/-! ### The first maximizer of a count function

`firstMaxBy cnt l` is the first element of `l` whose count is maximal: the
reference point for the stable tie-breaking of `Counter.most_common`. -/

def firstMaxBy {α : Type} (cnt : α → Nat) : List α → Option α
  | [] => none
  | x :: xs =>
    match firstMaxBy cnt xs with
    | none => some x
    | some m => if cnt x < cnt m then some m else some x

theorem firstMaxBy_cons {α : Type} (cnt : α → Nat) (x : α) (l : List α) :
    firstMaxBy cnt (x :: l)
      = match firstMaxBy cnt l with
        | none => some x
        | some m => if cnt x < cnt m then some m else some x := rfl

theorem firstMaxBy_cons_none {α : Type} (cnt : α → Nat) (x : α) (l : List α)
    (h : firstMaxBy cnt l = none) : firstMaxBy cnt (x :: l) = some x := by
  rw [firstMaxBy_cons, h]

theorem firstMaxBy_cons_some {α : Type} (cnt : α → Nat) (x : α) (l : List α)
    (m : α) (h : firstMaxBy cnt l = some m) :
    firstMaxBy cnt (x :: l)
      = if cnt x < cnt m then some m else some x := by
  rw [firstMaxBy_cons, h]

theorem firstMaxBy_eq_none_iff {α : Type} (cnt : α → Nat) (l : List α) :
    firstMaxBy cnt l = none ↔ l = [] := by
  cases l with
  | nil => simp [firstMaxBy]
  | cons x xs =>
    cases h : firstMaxBy cnt xs with
    | none => rw [firstMaxBy_cons_none cnt x xs h]; simp
    | some m =>
      rw [firstMaxBy_cons_some cnt x xs m h]
      by_cases hlt : cnt x < cnt m <;> simp [hlt]

theorem firstMaxBy_mem {α : Type} (cnt : α → Nat) :
    ∀ (l : List α) (v : α), firstMaxBy cnt l = some v → v ∈ l := by
  intro l
  induction l with
  | nil => intro v h; cases h
  | cons x xs ih =>
    intro v h
    cases hm : firstMaxBy cnt xs with
    | none =>
      rw [firstMaxBy_cons_none cnt x xs hm] at h
      cases h
      simp
    | some m =>
      rw [firstMaxBy_cons_some cnt x xs m hm] at h
      by_cases hlt : cnt x < cnt m
      · rw [if_pos hlt] at h
        cases h
        exact List.mem_cons_of_mem _ (ih _ hm)
      · rw [if_neg hlt] at h
        cases h
        simp

theorem firstMaxBy_max {α : Type} (cnt : α → Nat) :
    ∀ (l : List α) (v : α), firstMaxBy cnt l = some v →
      ∀ w ∈ l, cnt w ≤ cnt v := by
  intro l
  induction l with
  | nil => intro v h; cases h
  | cons x xs ih =>
    intro v h w hw
    cases hm : firstMaxBy cnt xs with
    | none =>
      have hxs : xs = [] := (firstMaxBy_eq_none_iff cnt xs).mp hm
      rw [firstMaxBy_cons_none cnt x xs hm] at h
      cases h
      subst hxs
      rcases List.mem_cons.mp hw with hwx | hwx
      · rw [hwx]
      · cases hwx
    | some m =>
      rw [firstMaxBy_cons_some cnt x xs m hm] at h
      by_cases hlt : cnt x < cnt m
      · rw [if_pos hlt] at h
        cases h
        rcases List.mem_cons.mp hw with hwx | hwx
        · rw [hwx]; exact Nat.le_of_lt hlt
        · exact ih _ hm w hwx
      · rw [if_neg hlt] at h
        cases h
        rcases List.mem_cons.mp hw with hwx | hwx
        · rw [hwx]
        · exact Nat.le_trans (ih _ hm w hwx) (Nat.le_of_not_lt hlt)

theorem firstMaxBy_first {α : Type} [DecidableEq α] (cnt : α → Nat) :
    ∀ (l : List α) (v : α), l.Nodup → firstMaxBy cnt l = some v →
      ∀ w ∈ l, cnt w = cnt v → firstIdx l v ≤ firstIdx l w := by
  intro l
  induction l with
  | nil => intro v _ h; cases h
  | cons x xs ih =>
    intro v hnd h w hw hcnt
    cases hm : firstMaxBy cnt xs with
    | none =>
      rw [firstMaxBy_cons_none cnt x xs hm] at h
      cases h
      rw [firstIdx_cons_self]
      exact Nat.zero_le _
    | some m =>
      rw [firstMaxBy_cons_some cnt x xs m hm] at h
      by_cases hlt : cnt x < cnt m
      · rw [if_pos hlt] at h
        cases h
        have hvxs : v ∈ xs := firstMaxBy_mem cnt xs v hm
        have hxnot : x ∉ xs := (List.nodup_cons.mp hnd).1
        have hvx : v ≠ x := fun hc => hxnot (hc ▸ hvxs)
        rcases List.mem_cons.mp hw with hwx | hwx
        · exfalso
          rw [hwx] at hcnt
          omega
        · have hwxne : w ≠ x := fun hc => hxnot (hc ▸ hwx)
          rw [firstIdx_cons_ne xs hvx, firstIdx_cons_ne xs hwxne]
          have := ih v (List.nodup_cons.mp hnd).2 hm w hwx hcnt
          omega
      · rw [if_neg hlt] at h
        cases h
        rw [firstIdx_cons_self]
        exact Nat.zero_le _

/-! ### `most_common1` computes the first maximizer -/

theorem foldl_max_eq_firstMaxBy {α : Type} (cnt : α → Nat) :
    ∀ (xs : List α) (x : α),
      xs.foldl (fun b y => if cnt b < cnt y then y else b) x
        = (firstMaxBy cnt (x :: xs)).getD x := by
  intro xs
  induction xs with
  | nil =>
    intro x
    rw [List.foldl_nil, firstMaxBy_cons_none cnt x []
      ((firstMaxBy_eq_none_iff cnt []).mpr rfl)]
    rfl
  | cons y xs ih =>
    intro x
    rw [List.foldl_cons, ih (if cnt x < cnt y then y else x)]
    have hkey : firstMaxBy cnt ((if cnt x < cnt y then y else x) :: xs)
        = firstMaxBy cnt (x :: y :: xs) := by
      cases hm : firstMaxBy cnt xs with
      | none =>
        have hxs : xs = [] := (firstMaxBy_eq_none_iff cnt xs).mp hm
        subst hxs
        by_cases hlt : cnt x < cnt y
        · rw [if_pos hlt,
            firstMaxBy_cons_none cnt y [] ((firstMaxBy_eq_none_iff cnt []).mpr rfl),
            firstMaxBy_cons_some cnt x [y] y
              (firstMaxBy_cons_none cnt y [] ((firstMaxBy_eq_none_iff cnt []).mpr rfl)),
            if_pos hlt]
        · rw [if_neg hlt,
            firstMaxBy_cons_none cnt x [] ((firstMaxBy_eq_none_iff cnt []).mpr rfl)]
          rw [firstMaxBy_cons_some cnt x [y] y
              (firstMaxBy_cons_none cnt y [] ((firstMaxBy_eq_none_iff cnt []).mpr rfl)),
            if_neg hlt]
      | some m =>
        have hn : firstMaxBy cnt (y :: xs)
            = if cnt y < cnt m then some m else some y :=
          firstMaxBy_cons_some cnt y xs m hm
        by_cases hlt : cnt x < cnt y
        · rw [if_pos hlt]
          cases hN : firstMaxBy cnt (y :: xs) with
          | none =>
            exact absurd ((firstMaxBy_eq_none_iff cnt _).mp hN) (by simp)
          | some n =>
            have hyn : cnt y ≤ cnt n :=
              firstMaxBy_max cnt _ n hN y (by simp)
            rw [firstMaxBy_cons_some cnt x (y :: xs) n hN,
              if_pos (Nat.lt_of_lt_of_le hlt hyn)]
        · rw [if_neg hlt]
          have hyx : cnt y ≤ cnt x := Nat.le_of_not_lt hlt
          have hLHS : firstMaxBy cnt (x :: xs)
              = if cnt x < cnt m then some m else some x :=
            firstMaxBy_cons_some cnt x xs m hm
          by_cases hym : cnt y < cnt m
          · have hN : firstMaxBy cnt (y :: xs) = some m := by
              rw [hn, if_pos hym]
            rw [hLHS, firstMaxBy_cons_some cnt x (y :: xs) m hN]
          · have hN : firstMaxBy cnt (y :: xs) = some y := by
              rw [hn, if_neg hym]
            have hmy : cnt m ≤ cnt y := Nat.le_of_not_lt hym
            rw [hLHS, firstMaxBy_cons_some cnt x (y :: xs) y hN,
              if_neg hlt, if_neg (by omega)]
    rw [hkey]
    cases h : firstMaxBy cnt (x :: y :: xs) with
    | none => exact absurd ((firstMaxBy_eq_none_iff cnt _).mp h) (by simp)
    | some m => rfl

theorem foldl_pairs {α : Type} (cnt : α → Nat) :
    ∀ (d : List α) (x : α),
      (d.map (fun v => (v, cnt v))).foldl
          (fun b y => if b.2 < y.2 then y else b) (x, cnt x)
        = (d.foldl (fun b y => if cnt b < cnt y then y else b) x,
           cnt (d.foldl (fun b y => if cnt b < cnt y then y else b) x)) := by
  intro d
  induction d with
  | nil => intro x; rfl
  | cons y d ih =>
    intro x
    simp only [List.map_cons, List.foldl_cons]
    by_cases hlt : cnt x < cnt y
    · rw [if_pos hlt, if_pos hlt]
      exact ih y
    · rw [if_neg hlt, if_neg hlt]
      exact ih x

theorem most_common1_eq_firstMaxBy {α : Type} [DecidableEq α] (l : List α) :
    most_common1 l = firstMaxBy (fun v => countOcc l v) (firstSeen l) := by
  rw [most_common1, counter_items]
  cases hfs : firstSeen l with
  | nil => simp [firstMaxBy]
  | cons x xs =>
    simp only [List.map_cons]
    rw [foldl_pairs (fun v => countOcc l v) xs x,
      foldl_max_eq_firstMaxBy (fun v => countOcc l v) xs x]
    cases h : firstMaxBy (fun v => countOcc l v) (x :: xs) with
    | none => exact absurd ((firstMaxBy_eq_none_iff _ _).mp h) (by simp)
    | some m => rfl

/-- The semantics of `Counter(l).most_common(1)[0][0]` for nonempty `l`:
an element of `l` of maximal multiplicity, and among those the one whose
first occurrence is earliest. -/
theorem most_common1_spec {α : Type} [DecidableEq α]
    (l : List α) (hne : l ≠ []) :
    ∃ v, most_common1 l = some v ∧ v ∈ l ∧
      (∀ w ∈ l, countOcc l w ≤ countOcc l v) ∧
      (∀ w ∈ l, countOcc l w = countOcc l v →
        firstIdx (firstSeen l) v ≤ firstIdx (firstSeen l) w) := by
  have hfs : firstSeen l ≠ [] := by
    rw [Ne, firstSeen_eq_nil_iff]; exact hne
  rw [most_common1_eq_firstMaxBy]
  cases h : firstMaxBy (fun v => countOcc l v) (firstSeen l) with
  | none => exact absurd ((firstMaxBy_eq_none_iff _ _).mp h) hfs
  | some v =>
    refine ⟨v, rfl, ?_, ?_, ?_⟩
    · exact (firstSeen_mem _ _).mp (firstMaxBy_mem _ _ _ h)
    · intro w hw
      exact firstMaxBy_max _ _ _ h w ((firstSeen_mem _ _).mpr hw)
    · intro w hw hcnt
      exact firstMaxBy_first _ _ v (firstSeen_nodup_aux l.length l (Nat.le_refl _)) h
        w ((firstSeen_mem _ _).mpr hw) hcnt

/-! ## The read-collection loops gather exactly the non-absent values -/

theorem collectAll_eq (f : String → Option String) :
    ∀ (l : List String) (vs ss : List String),
      collectAll f l (vs, ss)
        = (vs ++ l.filterMap f,
           ss ++ l.filter (fun n => (f n).isSome)) := by
  intro l
  induction l with
  | nil => intro vs ss; simp [collectAll]
  | cons n rest ih =>
    intro vs ss
    cases hf : f n with
    | none =>
      rw [show collectAll f (n :: rest) (vs, ss)
          = collectAll f rest (vs, ss) by rw [collectAll, hf]]
      rw [ih]
      simp [List.filterMap_cons, List.filter_cons, hf]
    | some v =>
      rw [show collectAll f (n :: rest) (vs, ss)
          = collectAll f rest (vs ++ [v], ss ++ [n]) by rw [collectAll, hf]]
      rw [ih]
      simp [List.filterMap_cons, List.filter_cons, hf]

theorem collectQuorum_eq (f : String → Option String) (req : Nat) :
    ∀ (l : List String) (vs ss : List String),
      collectQuorum f req l (vs, ss)
        = (vs ++ (l.filterMap f).take (req - vs.length),
           ss ++ (l.filter (fun n => (f n).isSome)).take (req - vs.length)) := by
  intro l
  induction l with
  | nil => intro vs ss; simp [collectQuorum]
  | cons n rest ih =>
    intro vs ss
    by_cases hb : req ≤ vs.length
    · rw [show collectQuorum f req (n :: rest) (vs, ss) = (vs, ss) by
        rw [collectQuorum, if_pos hb]]
      have h0 : req - vs.length = 0 := Nat.sub_eq_zero_of_le hb
      simp [h0]
    · have hpos : 1 ≤ req - vs.length := by omega
      cases hf : f n with
      | none =>
        rw [show collectQuorum f req (n :: rest) (vs, ss)
            = collectQuorum f req rest (vs, ss) by
          rw [collectQuorum, if_neg hb, hf]]
        rw [ih]
        simp [List.filterMap_cons, List.filter_cons, hf]
      | some v =>
        rw [show collectQuorum f req (n :: rest) (vs, ss)
            = collectQuorum f req rest (vs ++ [v], ss ++ [n]) by
          rw [collectQuorum, if_neg hb, hf]]
        rw [ih]
        obtain ⟨k, hk⟩ : ∃ k, req - vs.length = k + 1 :=
          ⟨req - vs.length - 1, by omega⟩
        have hk' : req - (vs ++ [v]).length = k := by
          simp only [List.length_append, List.length_cons, List.length_nil]
          omega
        rw [hk', hk]
        simp [List.filterMap_cons, List.filter_cons, hf, List.take_succ_cons]

theorem read_from_all_eq (c : Cluster) (key : String) :
    read_from_all_replicas c key
      = ((replicaNodes c key).filterMap (nodeReadVal c key),
         (replicaNodes c key).filter
           (fun n => (nodeReadVal c key n).isSome)) := by
  rw [read_from_all_replicas, collectAll_eq]
  simp

theorem read_from_quorum_eq (c : Cluster) (key : String) :
    read_from_quorum_replicas c key
      = (((replicaNodes c key).filterMap (nodeReadVal c key)).take
           ((replicaNodes c key).length / 2 + 1),
         ((replicaNodes c key).filter
            (fun n => (nodeReadVal c key n).isSome)).take
           ((replicaNodes c key).length / 2 + 1)) := by
  rw [read_from_quorum_replicas, collectQuorum_eq]
  simp

/-! ### Unfolding the `all` and `quorum` arms of `handle_get` -/

theorem handle_get_all_eq (c : Cluster) (key : String) :
    handle_get c key (some "all")
      = (if (read_from_all_replicas c key).1 ≠ [] then
          (if (firstSeen (read_from_all_replicas c key).1).length = 1 then
            GetResp.ok ⟨key, (firstSeen (read_from_all_replicas c key).1).headD "",
              "all", (read_from_all_replicas c key).2⟩
          else GetResp.conflict (firstSeen (read_from_all_replicas c key).1)
            (read_from_all_replicas c key).2)
        else GetResp.notFound) := by
  simp only [handle_get, Option.getD_some]
  exact if_pos trivial

theorem handle_get_quorum_eq (c : Cluster) (key : String) :
    handle_get c key (some "quorum")
      = (if (read_from_quorum_replicas c key).1 ≠ [] then
          GetResp.ok ⟨key,
            (most_common1 (read_from_quorum_replicas c key).1).getD "",
            "quorum", (read_from_quorum_replicas c key).2⟩
        else GetResp.notFound) := by
  simp only [handle_get, Option.getD_some]
  rw [if_neg (show ¬ ("quorum" : String) = "all" by decide)]
  exact if_pos trivial

/-! ### C3: quorum reads -/

/-- C3: a `quorum` read walks the replica set in order (self inclusive),
collecting non-absent values until `⌊n/2⌋+1` values are gathered or the set
is exhausted; with at least one value collected it replies 200 with the most
frequent collected value (ties broken by first-seen order) and the source
list, and with zero values it replies 404. -/
theorem C3_quorum_read (c : Cluster) (key : String) :
    read_from_quorum_replicas c key
      = (((replicaNodes c key).filterMap (nodeReadVal c key)).take
           ((replicaNodes c key).length / 2 + 1),
         ((replicaNodes c key).filter
            (fun n => (nodeReadVal c key n).isSome)).take
           ((replicaNodes c key).length / 2 + 1)) ∧
    ((read_from_quorum_replicas c key).1 = [] →
      handle_get c key (some "quorum") = GetResp.notFound) ∧
    ((read_from_quorum_replicas c key).1 ≠ [] →
      ∃ v, handle_get c key (some "quorum")
          = GetResp.ok ⟨key, v, "quorum", (read_from_quorum_replicas c key).2⟩ ∧
        v ∈ (read_from_quorum_replicas c key).1 ∧
        (∀ w ∈ (read_from_quorum_replicas c key).1,
          countOcc (read_from_quorum_replicas c key).1 w
            ≤ countOcc (read_from_quorum_replicas c key).1 v) ∧
        (∀ w ∈ (read_from_quorum_replicas c key).1,
          countOcc (read_from_quorum_replicas c key).1 w
              = countOcc (read_from_quorum_replicas c key).1 v →
          firstIdx (firstSeen (read_from_quorum_replicas c key).1) v
            ≤ firstIdx (firstSeen (read_from_quorum_replicas c key).1) w)) := by
  refine ⟨read_from_quorum_eq c key, ?_, ?_⟩
  · intro hnil
    rw [handle_get_quorum_eq, if_neg (by simp [hnil])]
  · intro hne
    obtain ⟨v, hv, hmem, hmax, hfirst⟩ := most_common1_spec _ hne
    refine ⟨v, ?_, hmem, hmax, hfirst⟩
    rw [handle_get_quorum_eq, if_pos hne, hv]
    rfl

/-- A concrete two-node cluster holding divergent values for key `k`,
used by the read witnesses. -/
def divergedCluster : Cluster :=
  { selfId := "n1", hashFn := String.length, rf := 3,
    peers := [("n1", "http1"), ("m22", "http2")],
    ring := ⟨[(2, "n1"), (3, "m22")], [2, 3]⟩,
    stores := fun n => if n = "n1" then [("k", "a")] else [("k", "b")],
    reachable := fun _ => true }

/-- C3 witness: the quorum read on a concrete cluster where both collected
values differ (the first-seen one wins the tie). -/
theorem C3_quorum_read_witness :
    ∃ v, handle_get divergedCluster "k" (some "quorum")
        = GetResp.ok ⟨"k", v, "quorum",
            (read_from_quorum_replicas divergedCluster "k").2⟩ ∧
      v ∈ (read_from_quorum_replicas divergedCluster "k").1 ∧
      (∀ w ∈ (read_from_quorum_replicas divergedCluster "k").1,
        countOcc (read_from_quorum_replicas divergedCluster "k").1 w
          ≤ countOcc (read_from_quorum_replicas divergedCluster "k").1 v) ∧
      (∀ w ∈ (read_from_quorum_replicas divergedCluster "k").1,
        countOcc (read_from_quorum_replicas divergedCluster "k").1 w
            = countOcc (read_from_quorum_replicas divergedCluster "k").1 v →
        firstIdx (firstSeen (read_from_quorum_replicas divergedCluster "k").1) v
          ≤ firstIdx (firstSeen (read_from_quorum_replicas divergedCluster "k").1) w) :=
  (C3_quorum_read divergedCluster "k").2.2 (by decide)

/-! ### C4: reads at `all` -/

/-- C4: an `all` read queries every replica (self inclusive; an unknown or
unreachable peer contributes no value); with at least one value and all
values equal it replies 200 with that value, with two or more distinct
values it replies 409 listing the distinct values and the source nodes, and
with zero values it replies 404. -/
theorem C4_all_read (c : Cluster) (key : String) :
    read_from_all_replicas c key
      = ((replicaNodes c key).filterMap (nodeReadVal c key),
         (replicaNodes c key).filter
           (fun n => (nodeReadVal c key n).isSome)) ∧
    ((read_from_all_replicas c key).1 = [] →
      handle_get c key (some "all") = GetResp.notFound) ∧
    ((read_from_all_replicas c key).1 ≠ [] →
      (∀ w ∈ (read_from_all_replicas c key).1,
          w = (read_from_all_replicas c key).1.headD "") →
      handle_get c key (some "all")
        = GetResp.ok ⟨key, (read_from_all_replicas c key).1.headD "", "all",
            (read_from_all_replicas c key).2⟩) ∧
    ((∃ v ∈ (read_from_all_replicas c key).1,
        ∃ w ∈ (read_from_all_replicas c key).1, v ≠ w) →
      handle_get c key (some "all")
        = GetResp.conflict (firstSeen (read_from_all_replicas c key).1)
            (read_from_all_replicas c key).2) := by
  refine ⟨read_from_all_eq c key, ?_, ?_, ?_⟩
  · intro hnil
    rw [handle_get_all_eq, if_neg (by simp [hnil])]
  · intro hne hall
    obtain ⟨v, rest, hvs⟩ :
        ∃ v rest, (read_from_all_replicas c key).1 = v :: rest := by
      cases h : (read_from_all_replicas c key).1 with
      | nil => exact absurd h hne
      | cons a b => exact ⟨a, b, rfl⟩
    have hrest : ∀ w ∈ rest, w = v := by
      intro w hw
      have h1 := hall w (by rw [hvs]; exact List.mem_cons_of_mem _ hw)
      rw [hvs] at h1
      simpa using h1
    have hfs : firstSeen (read_from_all_replicas c key).1 = [v] := by
      rw [hvs]; exact firstSeen_all_eq v rest hrest
    have hhead : (read_from_all_replicas c key).1.headD "" = v := by
      rw [hvs]; rfl
    rw [handle_get_all_eq, if_pos hne, if_pos (by rw [hfs]; rfl), hfs, hhead]
    rfl
  · intro ⟨v, hvmem, w, hwmem, hvw⟩
    have hne : (read_from_all_replicas c key).1 ≠ [] := by
      intro hc; rw [hc] at hvmem; cases hvmem
    have hlen : (firstSeen (read_from_all_replicas c key).1).length ≠ 1 := by
      intro hc
      obtain ⟨a, ha⟩ := List.length_eq_one.mp hc
      have hv : v = a := by
        have := (firstSeen_mem _ v).mpr hvmem
        rw [ha] at this
        simpa using this
      have hw : w = a := by
        have := (firstSeen_mem _ w).mpr hwmem
        rw [ha] at this
        simpa using this
      exact hvw (hv.trans hw.symm)
    rw [handle_get_all_eq, if_pos hne, if_neg hlen]

/-- C4 witness: the conflict arm on the diverged cluster. -/
theorem C4_all_read_witness :
    handle_get divergedCluster "k" (some "all")
      = GetResp.conflict
          (firstSeen (read_from_all_replicas divergedCluster "k").1)
          (read_from_all_replicas divergedCluster "k").2 :=
  (C4_all_read divergedCluster "k").2.2.2 (by decide)

end KV
